import Mathlib

/-!
Verification of the flint-ls execution and scheduling engine.

The Go sources are embedded shallowly: strings are Lean `String`s (often
manipulated through their `List Char` contents), Go maps become association
lists, Go `int` becomes `Int`, channels become explicit message traces, and
subprocess execution and the file system become explicit function parameters.
Definitions keep the Go names where Lean allows it.
-/

set_option autoImplicit false

namespace FlintLs

/-! ### Basic LSP data model (types/lsp.go) -/

abbrev DocumentURI := String

structure Position where
  line : Int
  character : Int
deriving DecidableEq, Repr

/-- Go `types.Range`; the Go field `End` is called `stop` here (`end` is reserved). -/
structure Range where
  start : Position
  stop : Position
deriving DecidableEq, Repr

structure TextEdit where
  range : Range
  newText : String
deriving DecidableEq, Repr

/-! ### Line splitting and edit application (core/diff_test.go)

`splitAfterNL` mirrors Go `strings.SplitAfter(text, "\n")`: every line keeps its
trailing newline and a text ending in a newline contributes a final empty line. -/

def splitAfterNL : List Char → List (List Char)
  | [] => [[]]
  | c :: rest =>
    if c = '\n' then [c] :: splitAfterNL rest
    else
      match splitAfterNL rest with
      | [] => [[c]]
      | l :: ls => (c :: l) :: ls

theorem splitAfterNL_ne_nil (s : List Char) : splitAfterNL s ≠ [] := by
  cases s with
  | nil => simp [splitAfterNL]
  | cons c rest =>
    by_cases h : c = '\n'
    · simp [splitAfterNL, h]
    · simp only [splitAfterNL, if_neg h]
      cases splitAfterNL rest <;> simp

theorem splitAfterNL_flatten (s : List Char) : (splitAfterNL s).flatten = s := by
  induction s with
  | nil => simp [splitAfterNL]
  | cons c rest ih =>
    by_cases h : c = '\n'
    · simp [splitAfterNL, h, ih]
    · simp only [splitAfterNL, if_neg h]
      cases hs : splitAfterNL rest with
      | nil => exact absurd hs (splitAfterNL_ne_nil rest)
      | cons l ls =>
        rw [hs] at ih
        simpa using congrArg (c :: ·) ih

/-- Lines `lines[lo : hi]` concatenated, with the upper index guarded by the list
length; this is the guarded copy loop of `applyEdits` in core/diff_test.go.
(`ComputeEdits` only produces non-negative positions, where `Int.toNat`
coincides with the Go loop arithmetic.) -/
def writeLines (lines : List (List Char)) (lo hi : Int) : List Char :=
  ((lines.drop lo.toNat).take (hi - lo).toNat).flatten

/-- Embedding of `applyEdits` from core/diff_test.go: copy the untouched lines
before each edit, emit the edit's replacement text, skip the replaced lines,
then copy the remainder. -/
def applyEditsCore (lines : List (List Char)) : Int → List TextEdit → List Char
  | lastLine, [] => (lines.drop lastLine.toNat).flatten
  | lastLine, e :: es =>
    writeLines lines lastLine e.range.start.line
      ++ e.newText.data
      ++ applyEditsCore lines e.range.stop.line es

def applyEdits (text : String) (edits : List TextEdit) : String :=
  ⟨applyEditsCore (splitAfterNL text.data) 0 edits⟩

/-! ### ComputeEdits (diff.go, not among the provided sources) -/

def commonPrefixLen {α : Type} [DecidableEq α] : List α → List α → Nat
  | a :: as, b :: bs => if a = b then commonPrefixLen as bs + 1 else 0
  | _, _ => 0

def commonSuffixLen {α : Type} [DecidableEq α] (xs ys : List α) : Nat :=
  commonPrefixLen xs.reverse ys.reverse

/-- Modelled from the spec: the repository's `ComputeEdits` (diff.go, built on the
external go-udiff library) is not among the provided source files; this model
follows §4.3 of the spec: a line-granular edit script whose ranges start and end
at character 0 of some line, turning `before` into `after`, empty when the two
inputs are equal.  The Go signature also returns an error, which is always nil,
so the model is total. -/
def ComputeEdits (_uri : DocumentURI) (before after : String) : List TextEdit :=
  if before = after then []
  else
    let la := splitAfterNL before.data
    let lb := splitAfterNL after.data
    let p := commonPrefixLen la lb
    let s := commonSuffixLen (la.drop p) (lb.drop p)
    [{ range := { start := { line := (p : Int), character := 0 },
                  stop := { line := ((la.length - s : Nat) : Int), character := 0 } },
       newText := ⟨((lb.drop p).take ((lb.drop p).length - s)).flatten⟩ }]

theorem commonPrefixLen_le_left {α : Type} [DecidableEq α] (xs ys : List α) :
    commonPrefixLen xs ys ≤ xs.length := by
  induction xs generalizing ys with
  | nil => simp [commonPrefixLen]
  | cons a as ih =>
    cases ys with
    | nil => simp [commonPrefixLen]
    | cons b bs =>
      by_cases h : a = b
      · simpa [commonPrefixLen, h] using ih bs
      · simp [commonPrefixLen, h]

theorem commonPrefixLen_le_right {α : Type} [DecidableEq α] (xs ys : List α) :
    commonPrefixLen xs ys ≤ ys.length := by
  induction xs generalizing ys with
  | nil => simp [commonPrefixLen]
  | cons a as ih =>
    cases ys with
    | nil => simp [commonPrefixLen]
    | cons b bs =>
      by_cases h : a = b
      · simpa [commonPrefixLen, h] using ih bs
      · simp [commonPrefixLen, h]

theorem commonPrefixLen_take {α : Type} [DecidableEq α] (xs ys : List α) :
    xs.take (commonPrefixLen xs ys) = ys.take (commonPrefixLen xs ys) := by
  induction xs generalizing ys with
  | nil => simp [commonPrefixLen]
  | cons a as ih =>
    cases ys with
    | nil => simp [commonPrefixLen]
    | cons b bs =>
      by_cases h : a = b
      · simp [commonPrefixLen, h, ih bs]
      · simp [commonPrefixLen, h]

theorem commonSuffixLen_le_left {α : Type} [DecidableEq α] (xs ys : List α) :
    commonSuffixLen xs ys ≤ xs.length := by
  simpa [commonSuffixLen] using commonPrefixLen_le_left xs.reverse ys.reverse

theorem commonSuffixLen_drop {α : Type} [DecidableEq α] (xs ys : List α) :
    xs.drop (xs.length - commonSuffixLen xs ys)
      = ys.drop (ys.length - commonSuffixLen xs ys) := by
  have hx : xs.drop (xs.length - commonSuffixLen xs ys) = xs.rtake (commonSuffixLen xs ys) := rfl
  have hy : ys.drop (ys.length - commonSuffixLen xs ys) = ys.rtake (commonSuffixLen xs ys) := rfl
  rw [hx, hy, List.rtake_eq_reverse_take_reverse, List.rtake_eq_reverse_take_reverse,
    commonSuffixLen, commonPrefixLen_take xs.reverse ys.reverse]

theorem flatten_take_append_drop {α : Type} (n : Nat) (l : List (List α)) :
    (l.take n).flatten ++ (l.drop n).flatten = l.flatten := by
  rw [← List.flatten_append, List.take_append_drop]

theorem diff_hunk_reassembles (la lb : List (List Char)) :
    (la.take (commonPrefixLen la lb)).flatten
      ++ ((lb.drop (commonPrefixLen la lb)).take
            ((lb.drop (commonPrefixLen la lb)).length
              - commonSuffixLen (la.drop (commonPrefixLen la lb))
                  (lb.drop (commonPrefixLen la lb)))).flatten
      ++ (la.drop (la.length
            - commonSuffixLen (la.drop (commonPrefixLen la lb))
                (lb.drop (commonPrefixLen la lb)))).flatten
    = lb.flatten := by
  set p := commonPrefixLen la lb with hp
  set s := commonSuffixLen (la.drop p) (lb.drop p) with hs
  have hpla : p ≤ la.length := commonPrefixLen_le_left la lb
  have hsla : s ≤ la.length - p := by
    simpa using commonSuffixLen_le_left (la.drop p) (lb.drop p)
  have harith : la.length - s = ((la.drop p).length - s) + p := by
    simp only [List.length_drop]
    omega
  have h2 : la.drop (la.length - s) = (la.drop p).drop ((la.drop p).length - s) := by
    rw [harith, List.drop_drop, Nat.add_comm]
  rw [commonPrefixLen_take la lb, ← hp, h2, commonSuffixLen_drop (la.drop p) (lb.drop p), ← hs,
    List.append_assoc, flatten_take_append_drop, flatten_take_append_drop]

/-- C1: for every pair of strings, applying the edit list returned by
`ComputeEdits uri before after` to `before` (with the edit-application semantics
of `applyEdits` from core/diff_test.go) yields exactly `after`; when
`before = after` the returned edit list is empty. -/
theorem ComputeEdits_roundtrip (uri : DocumentURI) (before after : String) :
    applyEdits before (ComputeEdits uri before after) = after ∧
    (before = after → ComputeEdits uri before after = []) := by
  refine ⟨?_, fun h => by simp [ComputeEdits, h]⟩
  by_cases h : before = after
  · subst h
    show String.mk (applyEditsCore _ 0 _) = before
    simp only [ComputeEdits, if_pos rfl]
    simp only [applyEditsCore, Int.toNat_zero, List.drop_zero, splitAfterNL_flatten]
  · show String.mk (applyEditsCore _ 0 _) = after
    simp only [ComputeEdits, if_neg h]
    simp only [applyEditsCore, writeLines]
    refine (congrArg String.mk ?_).trans (rfl : String.mk after.data = after)
    simp only [Int.toNat_zero, List.drop_zero, Int.sub_zero, Int.toNat_natCast]
    exact (diff_hunk_reassembles (splitAfterNL before.data) (splitAfterNL after.data)).trans
      (splitAfterNL_flatten after.data)

/-- Concrete instantiation of `ComputeEdits_roundtrip`. -/
theorem ComputeEdits_roundtrip_witness :
    applyEdits "line1\nline2\n" (ComputeEdits "file:///t" "line1\nline2\n" "line1\nline3\n")
        = "line1\nline3\n" ∧
    ("line1\nline2\n" = "line1\nline3\n" →
      ComputeEdits "file:///t" "line1\nline2\n" "line1\nline3\n" = []) :=
  ComputeEdits_roundtrip "file:///t" "line1\nline2\n" "line1\nline3\n"

/-! ### Language configuration (types/core.go) -/

/-- Go `types.Language`.  Go maps become association lists; the Go field
`Prefix` is called `prefixText` here. -/
structure Language where
  env : List String := []
  rootMarkers : List String := []
  requireMarker : Bool := false
  prefixText : String := ""
  lintFormats : List String := []
  lintStdin : Bool := false
  lintOffset : Int := 0
  lintOffsetColumns : Int := 0
  lintCommand : String := ""
  lintIgnoreExitCode : Bool := false
  lintCategoryMap : List (String × String) := []
  lintSource : String := ""
  lintSeverity : Int := 0
  lintAfterOpen : Option Bool := none
  lintOnChange : Option Bool := none
  lintOnSave : Option Bool := none
  formatCommand : String := ""
  formatCanRange : Bool := false
deriving Repr, DecidableEq

/-- Go `types.DiagnosticSeverity` is an int. -/
abbrev DiagnosticSeverity := Int

def DiagError : DiagnosticSeverity := 1
def DiagWarning : DiagnosticSeverity := 2
def DiagInformation : DiagnosticSeverity := 3
def DiagHint : DiagnosticSeverity := 4

/-! ### Severity mapping (lint.go, `getSeverity`) -/

/-- Embedding of `getSeverity` from lint.go.  When `lintCategoryMap` is
non-empty the Go code runs `typ = []rune(categoryMap[string(typ)])[0]`; for a
type character absent from the map the looked-up string is the empty string and
indexing it at 0 is a run-time panic (index out of range), modelled as `none`. -/
def getSeverity (typ : Char) (categoryMap : List (String × String))
    (defaultSeverity : DiagnosticSeverity) : Option DiagnosticSeverity :=
  let typFromMap : Option Char :=
    if categoryMap.length > 0 then
      ((List.lookup (String.mk [typ]) categoryMap).getD "").data.head?
    else some typ
  match typFromMap with
  | none => none
  | some t =>
    let severity := if defaultSeverity ≠ 0 then defaultSeverity else DiagError
    some (if t = 'E' ∨ t = 'e' then DiagError
          else if t = 'W' ∨ t = 'w' then DiagWarning
          else if t = 'I' ∨ t = 'i' then DiagInformation
          else if t = 'N' ∨ t = 'n' then DiagHint
          else severity)

/-- C3: with a non-empty `lintCategoryMap` that does not contain the entry's
type character, `getSeverity` does not fall back to `lintSeverity`/Error as the
spec states: the Go code indexes the runes of the missing map value (the empty
string) and panics (modelled as `none`).  A mapped character works as
described. -/
theorem getSeverity_unmapped_type_panics :
    getSeverity 'E' [("R", "I")] 0 = none ∧
    getSeverity 'R' [("R", "I")] 0 = some DiagInformation ∧
    getSeverity 'X' [] DiagWarning = some DiagWarning := by
  refine ⟨rfl, rfl, ?_⟩
  simp [getSeverity, DiagWarning, DiagError]

/-! ### Lint subprocess exit classification (lint.go, `runLintCommand`) -/

/-- Non-nil Go `error` as returned by `cmd.CombinedOutput()`: either an
`exec.ExitError` carrying an exit code, or any other error. -/
inductive GoExecError where
  | exitError (code : Int)
  | other
deriving Repr, DecidableEq

def unknownExitCode : Int := -999

def parseErrorExitCode : GoExecError → Int
  | .exitError code => code
  | .other => unknownExitCode

/-- Embedding of `runLintCommand` from lint.go.  `out` and `err` are the result
pair of `cmd.CombinedOutput()`; the Go return pair `([]byte, error)` becomes
`Except GoExecError (Option String)`: `.error` when the Go error is propagated,
otherwise `.ok` of the output to parse (`none` is Go's nil output: nothing to
parse). -/
def runLintCommand (out : String) (err : Option GoExecError) (config : Language) :
    Except GoExecError (Option String) :=
  match err with
  | none => if config.lintIgnoreExitCode then .ok (some out) else .ok none
  | some e =>
    let code := parseErrorExitCode e
    if code = unknownExitCode then .error e
    else if code < 0 then .ok none
    else .ok (some out)

/-- C4: classification of lint subprocess results.  Exit code zero parses the
output only under `lintIgnoreExitCode` and never errors; a (representable)
negative exit code drops the output without error; a positive exit code parses
the output; an undeterminable exit code surfaces the error.  (Go's
`ExitCode()` is `-1` or an 8-bit status, so it never collides with the
`-999` sentinel; the negative case carries that side condition.) -/
theorem runLintCommand_classification (out : String) (config : Language) (code : Int) :
    runLintCommand out none config
        = .ok (if config.lintIgnoreExitCode then some out else none) ∧
    (code < 0 → code ≠ unknownExitCode →
      runLintCommand out (some (.exitError code)) config = .ok none) ∧
    (0 < code → runLintCommand out (some (.exitError code)) config = .ok (some out)) ∧
    runLintCommand out (some .other) config = .error .other := by
  refine ⟨?_, ?_, ?_, ?_⟩
  · by_cases h : config.lintIgnoreExitCode <;> simp [runLintCommand, h]
  · intro hneg hne
    simp [runLintCommand, parseErrorExitCode, hne, hneg]
  · intro hpos
    have h1 : code ≠ unknownExitCode := by
      intro h; rw [h] at hpos; exact absurd hpos (by decide)
    have h2 : ¬ code < 0 := by omega
    simp [runLintCommand, parseErrorExitCode, h1, h2]
  · simp [runLintCommand, parseErrorExitCode, unknownExitCode]

/-- Concrete instantiation of `runLintCommand_classification`. -/
theorem runLintCommand_classification_witness :
    runLintCommand "o" none {} = .ok (if ({} : Language).lintIgnoreExitCode then some "o" else none) ∧
    ((-1 : Int) < 0 → (-1 : Int) ≠ unknownExitCode →
      runLintCommand "o" (some (.exitError (-1))) {} = .ok none) ∧
    ((0 : Int) < -1 → runLintCommand "o" (some (.exitError (-1))) {} = .ok (some "o")) ∧
    runLintCommand "o" (some .other) {} = .error .other :=
  runLintCommand_classification "o" {} (-1)

/-! ### Diagnostics and errorformat entries -/

/-- Go `core.fileRef` (handler.go). -/
structure FileRef where
  version : Int := 0
  normalizedFilename : String := ""
  languageID : String := ""
  text : String := ""
  uri : DocumentURI := ""
deriving Repr, DecidableEq

/-- Record produced by the external reviewdog/errorformat scanner.  The Go
`Type` field (a rune) is called `typ` here; its zero value is the NUL rune. -/
structure EfmEntry where
  filename : String := ""
  lnum : Int := 0
  endLnum : Int := 0
  col : Int := 0
  endCol : Int := 0
  text : String := ""
  typ : Char := Char.ofNat 0
  nr : Int := 0
  valid : Bool := true
deriving Repr, DecidableEq

/-- Go `types.Diagnostic` (the unused `RelatedInformation` field is omitted). -/
structure Diagnostic where
  range : Range
  severity : DiagnosticSeverity
  code : Option Int
  source : Option String
  message : String
deriving Repr, DecidableEq

def itoaPtrIfNotZero (n : Int) : Option Int :=
  if n = 0 then none else some n

def getLintSource (config : Language) : Option String :=
  if config.lintSource ≠ "" then some config.lintSource else none

/-- Embedding of `getLintMessagePrefix` from lint.go. -/
def getLintMessagePrefixText (config : Language) : String :=
  if config.prefixText ≠ "" then "[" ++ config.prefixText ++ "] " else ""

/-- UTF-16 code units taken by one character. -/
def charUtf16Len (c : Char) : Int :=
  if c.toNat < 0x10000 then 1 else 2

def isWordChar (c : Char) : Bool :=
  c.isAlphanum || c = '_'

def utf16RunLen (cs : List Char) : Int :=
  (cs.takeWhile isWordChar).foldl (fun a c => a + charUtf16Len c) 0

/-- UTF-16 length of the maximal word-character run covering UTF-16 offset
`target` of the character list, scanning from offset `off`. -/
def wordLenFrom : List Char → Int → Int → Int
  | [], _, _ => 0
  | c :: rest, off, target =>
    if isWordChar c then
      let runLen := utf16RunLen (c :: rest)
      if off ≤ target ∧ target < off + runLen then runLen
      else wordLenFrom (rest.dropWhile isWordChar) (off + runLen) target
    else
      wordLenFrom rest (off + charUtf16Len c) target
termination_by cs _ _ => cs.length
decreasing_by
  · exact Nat.lt_succ_of_le (List.dropWhile_suffix _).length_le
  · simp

/-- Lines of a text split on newline (newline not kept), mirroring Go
`strings.Split(text, "\n")`. -/
def splitOnNL : List Char → List (List Char)
  | [] => [[]]
  | c :: rest =>
    if c = '\n' then [] :: splitOnNL rest
    else
      match splitOnNL rest with
      | [] => [[c]]
      | l :: ls => (c :: l) :: ls

/-- Modelled from the spec: `WordAtUtf16` (§4.8 position utilities; its source
file is not among the provided sources) returns the word under the given
position; only its length in UTF-16 code units is consumed, by
`parseEfmEntryToDiagnostic` when `EndCol` is absent and `Col` is non-zero.
Word characters are modelled as alphanumerics and underscore. -/
def wordAtUtf16Len (text : String) (line character : Int) : Int :=
  let lines := splitOnNL text.data
  if 0 ≤ line ∧ line.toNat < lines.length then
    wordLenFrom ((lines.get? line.toNat).getD []) 0 character
  else 0

/-- Embedding of `parseEfmEntryToDiagnostic` from lint.go.  The result is
`none` when the embedded `getSeverity` panics (see
`getSeverity_unmapped_type_panics`); otherwise it is the Go result. -/
def parseEfmEntryToDiagnostic (entry : EfmEntry) (config : Language) (f : FileRef) :
    Option Diagnostic :=
  let lineStart := max (entry.lnum - 1 - config.lintOffset) 0
  let lineEnd := if entry.endLnum ≠ 0 then max (entry.endLnum - 1 - config.lintOffset) 0
                 else lineStart
  let colStart0 := max (entry.col - 1) 0
  let cols :=
    if entry.col ≠ 0 then
      let cs := colStart0 + config.lintOffsetColumns
      if entry.endCol ≠ 0 then (cs, max (entry.endCol - 1) 0 + config.lintOffsetColumns)
      else (cs, cs + wordAtUtf16Len f.text lineStart cs)
    else (colStart0, colStart0)
  match getSeverity entry.typ config.lintCategoryMap config.lintSeverity with
  | none => none
  | some sev =>
    some { range := { start := { line := lineStart, character := cols.1 },
                      stop := { line := lineEnd, character := cols.2 } },
           severity := sev,
           code := itoaPtrIfNotZero entry.nr,
           source := getLintSource config,
           message := getLintMessagePrefixText config ++ entry.text }

/-- C7: for an errorformat entry with `Col == 0`, the produced diagnostic is a
whole-line diagnostic with start and end character 0, regardless of
`lintOffsetColumns` (and of every other configuration field). -/
theorem parseEfmEntry_col_zero_immunity (entry : EfmEntry) (config : Language)
    (f : FileRef) (d : Diagnostic) (hcol : entry.col = 0)
    (hres : parseEfmEntryToDiagnostic entry config f = some d) :
    d.range.start.character = 0 ∧ d.range.stop.character = 0 := by
  simp only [parseEfmEntryToDiagnostic, hcol] at hres
  revert hres
  split
  · intro hres; exact absurd hres (by simp)
  · intro hres
    have := (Option.some.injEq _ _).mp hres
    subst this
    norm_num

/-- Concrete instantiation of `parseEfmEntry_col_zero_immunity`: a whole-line
entry with a large `lintOffsetColumns` still gets characters 0/0. -/
theorem parseEfmEntry_col_zero_immunity_witness :
    ∃ d, parseEfmEntryToDiagnostic { lnum := 1, col := 0, text := "world bad", typ := 'E' }
            { lintOffsetColumns := 11 } { text := "hello world\ngolang rulezz" } = some d ∧
      d.range.start.character = 0 ∧ d.range.stop.character = 0 := by
  have h : parseEfmEntryToDiagnostic
      { lnum := 1, col := 0, text := "world bad", typ := 'E' }
      { lintOffsetColumns := 11 } { text := "hello world\ngolang rulezz" }
      = some { range := { start := { line := 0, character := 0 },
                          stop := { line := 0, character := 0 } },
               severity := DiagError, code := none, source := none,
               message := "world bad" } := by rfl
  exact ⟨_, h, parseEfmEntry_col_zero_immunity _ _ _ _ rfl h⟩

/-! ### Go string utilities used by the placeholder expander -/

/-- Go `unicode.IsSpace` (the White_Space code points). -/
def goIsSpace (c : Char) : Bool :=
  c = ' ' || c = '\t' || c = '\n' || c = '\x0b' || c = '\x0c' || c = '\r' ||
  c.toNat = 0x85 || c.toNat = 0xa0 || c.toNat = 0x1680 ||
  (0x2000 ≤ c.toNat && c.toNat ≤ 0x200a) ||
  c.toNat = 0x2028 || c.toNat = 0x2029 || c.toNat = 0x202f ||
  c.toNat = 0x205f || c.toNat = 0x3000

/-- Go `strings.TrimSpace`. -/
def trimSpace (s : List Char) : List Char :=
  (s.dropWhile goIsSpace).rdropWhile goIsSpace

theorem dropWhile_head_false {α : Type} (p : α → Bool) (l : List α) (d : α) (t : List α)
    (h : List.dropWhile p l = d :: t) : p d = false := by
  induction l with
  | nil => simp [List.dropWhile] at h
  | cons a as ih =>
    rw [List.dropWhile_cons] at h
    by_cases hp : p a
    · rw [if_pos hp] at h
      exact ih h
    · rw [if_neg hp] at h
      obtain ⟨rfl, -⟩ := List.cons.inj h
      simpa using hp

theorem trimSpace_idempotent (s : List Char) : trimSpace (trimSpace s) = trimSpace s := by
  unfold trimSpace
  have hA : List.dropWhile goIsSpace
      (List.rdropWhile goIsSpace (List.dropWhile goIsSpace s))
      = List.rdropWhile goIsSpace (List.dropWhile goIsSpace s) := by
    cases hy : List.rdropWhile goIsSpace (List.dropWhile goIsSpace s) with
    | nil => simp
    | cons d ys =>
      obtain ⟨u, hu⟩ := List.rdropWhile_prefix goIsSpace (List.dropWhile goIsSpace s)
      rw [hy] at hu
      have hd : goIsSpace d = false := dropWhile_head_false _ _ _ _ hu.symm
      rw [List.dropWhile_cons, if_neg (by simp [hd])]
  rw [hA, List.rdropWhile_idempotent]

/-- Fuel-indexed scan for Go `strings.ReplaceAll` (left-to-right,
non-overlapping).  Each step consumes at least one character, so fuel
`s.length` always completes the scan; exhausted fuel returns the remainder
unchanged (unreachable from the wrapper below). -/
def replaceAllFuel (pat rep : List Char) : Nat → List Char → List Char
  | _, [] => []
  | 0, s => s
  | fuel + 1, c :: rest =>
    if pat ≠ [] ∧ pat.isPrefixOf (c :: rest) then
      rep ++ replaceAllFuel pat rep fuel ((c :: rest).drop pat.length)
    else c :: replaceAllFuel pat rep fuel rest

/-- Go `strings.ReplaceAll` (the patterns used by the code are all
non-empty; an empty pattern behaves as the identity here). -/
def replaceAllAux (pat rep s : List Char) : List Char :=
  replaceAllFuel pat rep s.length s

/-! ### Placeholder expansion (formatting.go, handler.go, utils.go) -/

/-- Go `any` values appearing in `FormattingOptions` maps. -/
inductive OptVal where
  | boolean (b : Bool)
  | str (s : String)
  | int (n : Int)
deriving Repr, DecidableEq

/-- Go `fmt.Sprintf("%v", v)` on the option values. -/
def showOptVal : OptVal → String
  | .boolean true => "true"
  | .boolean false => "false"
  | .str s => s
  | .int n => toString n

/-- One attempted match of the regex `\$\{([^<sep>}]+)<sep>([^}]+)\}` at the
head of `s` (Go `reColon` with `sep = ':'`, `reEquals` with `sep = '='`):
returns the two groups and the remainder after the match. -/
def matchPlaceholder (sep : Char) (s : List Char) :
    Option (List Char × List Char × List Char) :=
  match s with
  | a :: b :: rest =>
    if a = '$' ∧ b = '{' then
      let flag := rest.takeWhile fun c => decide (c ≠ sep) && decide (c ≠ '}')
      match rest.drop flag.length with
      | c1 :: r2 =>
        if flag ≠ [] ∧ c1 = sep then
          let opt := r2.takeWhile fun c => decide (c ≠ '}')
          match r2.drop opt.length with
          | c3 :: r4 => if opt ≠ [] ∧ c3 = '}' then some (flag, opt, r4) else none
          | [] => none
        else none
      | [] => none
    else none
  | _ => none

/-- Fuel-indexed scan for Go `regexp.ReplaceAllStringFunc` on the placeholder
regexes: scan left to right, replace each match by `resolve group1 group2`,
never rescanning replacement text.  A match consumes at least five characters
and a non-match one, so fuel `s.length` always completes the scan. -/
def replacePlaceholdersFuel (sep : Char) (resolve : List Char → List Char → List Char) :
    Nat → List Char → List Char
  | _, [] => []
  | 0, s => s
  | fuel + 1, c :: rest =>
    match matchPlaceholder sep (c :: rest) with
    | some (flag, opt, r4) => resolve flag opt ++ replacePlaceholdersFuel sep resolve fuel r4
    | none => c :: replacePlaceholdersFuel sep resolve fuel rest

def replacePlaceholders (sep : Char) (resolve : List Char → List Char → List Char)
    (s : List Char) : List Char :=
  replacePlaceholdersFuel sep resolve s.length s

/-- Embedding of `resolveOptionsPlaceholder` (formatting.go).  `matchSep` is the
regex separator (`:` or `=`), `outSep` the output separator (`" "` or `"="`).
When the key is absent the matched text `${flag<matchSep>opt}` is kept. -/
def resolveOptionsPlaceholder (matchSep : Char) (outSep : String)
    (options : List (String × OptVal)) (flag opt : List Char) : List Char :=
  let neg : Bool := opt.head? = some '!'
  let key := if neg then opt.tail else opt
  match List.lookup (String.mk key) options with
  | none => '$' :: '{' :: (flag ++ matchSep :: opt ++ ['}'])
  | some (.boolean b) => if b = !neg then flag else []
  | some v => if neg then [] else flag ++ outSep.data ++ (showOptVal v).data

/-- Embedding of `applyOptionsPlaceholders` (formatting.go): the `:` pass, then
the `=` pass, then `strings.TrimSpace`.  The Go error return is always nil. -/
def applyOptionsPlaceholders (command : String) (options : List (String × OptVal)) : String :=
  let afterColon := replacePlaceholders ':' (resolveOptionsPlaceholder ':' " " options) command.data
  let afterEq := replacePlaceholders '=' (resolveOptionsPlaceholder '=' "=" options) afterColon
  ⟨trimSpace afterEq⟩

/-- Embedding of `convertRowColToIndex` (formatting.go): clamp the row into the
line list and the column into the row, then count bytes assuming newline
separators.  (Go would panic on an empty `lines`; callers always pass the
result of a split, which is never empty.) -/
def convertRowColToIndex (lines : List (List Char)) (row col : Int) : Int :=
  let row := max row 0
  let row := min row ((lines.length : Int) - 1)
  let col := max col 0
  let col := min col (((lines.get? row.toNat).getD []).length : Int)
  (lines.take row.toNat).foldl (fun (a : Int) l => a + (l.length : Int) + 1) 0 + col

/-- Embedding of `applyRangePlaceholders` (formatting.go). -/
def applyRangePlaceholders (command : String) (rng : Range) (text : String) : String :=
  let lines := splitOnNL text.data
  let rangeOptions : List (String × OptVal) :=
    [("charStart", .int (convertRowColToIndex lines rng.start.line rng.start.character)),
     ("charEnd", .int (convertRowColToIndex lines rng.stop.line rng.stop.character)),
     ("rowStart", .int rng.start.line),
     ("colStart", .int rng.start.character),
     ("rowEnd", .int rng.stop.line),
     ("colEnd", .int rng.stop.character)]
  applyOptionsPlaceholders command rangeOptions

/-- Go `filepath.Ext`: the suffix beginning at the final dot in the final
slash-separated element, empty when that element has no dot. -/
def goExt (fname : List Char) : List Char :=
  let rev := fname.reverse.takeWhile fun c => decide (c ≠ '/')
  if rev.any (fun c => c = '.') then (rev.takeWhile (fun c => decide (c ≠ '.')) ++ ['.']).reverse
  else []

/-- Embedding of `escapeBrackets` (handler.go). -/
def escapeBrackets (path : List Char) : List Char :=
  replaceAllAux [')'] ['\\', ')'] (replaceAllAux ['('] ['\\', '('] path)

/-- Embedding of `replaceMagicStrings` (handler.go); `filepath.FromSlash` is the
identity on POSIX, matching the non-Windows build. -/
def replaceMagicStrings (command fname rootPath : List Char) : List Char :=
  let ext := goExt fname
  let extNoDot := if ext.head? = some '.' then ext.tail else ext
  let command := replaceAllAux "${INPUT}".data (escapeBrackets fname) command
  let command := replaceAllAux "${FILEEXT}".data extNoDot command
  let command := replaceAllAux "${FILENAME}".data (escapeBrackets fname) command
  replaceAllAux "${ROOT}".data (escapeBrackets rootPath) command

/-- One attempted match of the regex `\$\{[^}]*\}` (Go
`reUnfilledPlaceholders`) at the head of `s`, returning the remainder. -/
def matchUnfilled (s : List Char) : Option (List Char) :=
  match s with
  | a :: b :: rest =>
    if a = '$' ∧ b = '{' then
      match rest.drop (rest.takeWhile fun c => decide (c ≠ '}')).length with
      | c :: r => if c = '}' then some r else none
      | [] => none
    else none
  | _ => none

/-- Fuel-indexed deletion scan; a match consumes at least three characters and
a non-match one, so fuel `s.length` always completes the scan. -/
def stripUnfilledFuel : Nat → List Char → List Char
  | _, [] => []
  | 0, s => s
  | fuel + 1, c :: rest =>
    match matchUnfilled (c :: rest) with
    | some r => stripUnfilledFuel fuel r
    | none => c :: stripUnfilledFuel fuel rest

/-- Deletion of every `\$\{[^}]*\}` match (Go
`reUnfilledPlaceholders.ReplaceAllString(command, "")`). -/
def stripUnfilled (s : List Char) : List Char :=
  stripUnfilledFuel s.length s

/-- Steps 1–3 of `buildFormatCommandString` (formatting.go): magic strings,
option placeholders, and (when a range is supplied) range placeholders. -/
def preStripCommand (rootPath filename textToFormat : String)
    (options : List (String × OptVal)) (rng : Option Range) (command : String) : String :=
  let command := String.mk (replaceMagicStrings command.data filename.data rootPath.data)
  let command := applyOptionsPlaceholders command options
  match rng with
  | some r => applyRangePlaceholders command r textToFormat
  | none => command

/-- Embedding of `buildFormatCommandString` (formatting.go): the expansion
passes of `preStripCommand` followed by the unfilled-placeholder strip.  No
step can fail, so the Go error return (always nil) is dropped. -/
def buildFormatCommandString (rootPath filename textToFormat : String)
    (options : List (String × OptVal)) (rng : Option Range) (command : String) : String :=
  ⟨stripUnfilled (preStripCommand rootPath filename textToFormat options rng command).data⟩

set_option maxHeartbeats 1000000 in
/-- C6 counterexample: expanding `"a ${foo}"` with no options and no range
yields `"a "`, which carries trailing whitespace — the unfilled-placeholder
strip runs after the trim, not before. -/
theorem buildFormatCommandString_trailing_space :
    buildFormatCommandString "" "f.txt" "" [] none "a ${foo}" = "a " ∧
    String.mk (trimSpace ("a ").data) ≠ "a " := by
  constructor
  · decide
  · decide

theorem applyOptionsPlaceholders_trimmed (c : String) (o : List (String × OptVal)) :
    trimSpace (applyOptionsPlaceholders c o).data = (applyOptionsPlaceholders c o).data :=
  trimSpace_idempotent _

theorem applyRangePlaceholders_trimmed (c : String) (r : Range) (t : String) :
    trimSpace (applyRangePlaceholders c r t).data = (applyRangePlaceholders c r t).data := by
  unfold applyRangePlaceholders
  exact applyOptionsPlaceholders_trimmed _ _

/-- C6 amended: the last two steps of `buildFormatCommandString` run in the
order trim-then-strip: the result is `stripUnfilled` of a string that is
already trim-normalized (so the final string may retain whitespace uncovered
by the stripping, as `buildFormatCommandString_trailing_space` shows). -/
theorem buildFormatCommandString_strip_last (rootPath filename textToFormat : String)
    (options : List (String × OptVal)) (rng : Option Range) (command : String) :
    ∃ t : List Char,
      buildFormatCommandString rootPath filename textToFormat options rng command
        = ⟨stripUnfilled t⟩ ∧ trimSpace t = t := by
  refine ⟨(preStripCommand rootPath filename textToFormat options rng command).data, rfl, ?_⟩
  cases rng with
  | none => exact applyOptionsPlaceholders_trimmed _ _
  | some r => exact applyRangePlaceholders_trimmed _ _ _

/-! ### Document store (handler.go) -/

/-- Modelled from the spec: `PathFromURI` (uri.go, not among the provided
sources) turns a `file://` URI into the local path and
`normalizedFilenameFromUri` (utils.go) slash-normalizes it (identity on
POSIX).  Only success versus failure matters to the claims below;
percent-decoding is omitted. -/
def normalizedFilenameFromUri (uri : DocumentURI) : Except String String :=
  if "file://".data.isPrefixOf uri.data then .ok ⟨uri.data.drop 7⟩
  else .error ("invalid uri: " ++ uri)

/-- One Go operation on the document slot of a fixed URI. -/
inductive FileOp where
  | openOp (languageID : String) (version : Int) (text : String)
  | updateOp (text : String) (version : Option Int)
deriving Repr, DecidableEq

/-- Embedding of `OpenFile` (handler.go) for a fixed URI: unconditionally
replaces the slot once the URI parses. -/
def openFileStep (uri : DocumentURI) (languageID : String) (version : Int) (text : String)
    (_slot : Option FileRef) : Except String (Option FileRef) :=
  match normalizedFilenameFromUri uri with
  | .error e => .error e
  | .ok fname => .ok (some { text := text, languageID := languageID, version := version,
                             normalizedFilename := fname, uri := uri })

/-- Embedding of `UpdateFile` (handler.go) for a fixed URI: the text is always
replaced and the version only when one is supplied. -/
def updateFileStep (text : String) (version : Option Int) (slot : Option FileRef) :
    Except String (Option FileRef) :=
  match slot with
  | none => .error "document not found"
  | some f => .ok (some { f with text := text, version := version.getD f.version })

def fileStep (uri : DocumentURI) (slot : Option FileRef) : FileOp → Except String (Option FileRef)
  | .openOp lang v text => openFileStep uri lang v text slot
  | .updateOp text v => updateFileStep text v slot

def suppliedVersion : FileOp → Option Int
  | .openOp _ v _ => some v
  | .updateOp _ v => v

/-- C9 counterexample: nothing enforces monotonicity — opening at version 5 and
then updating with version 3 stores 3, a strict decrease. -/
theorem fileVersion_decreases :
    ∃ f5 f3 : FileRef,
      openFileStep "file:///a" "go" 5 "t" none = .ok (some f5) ∧
      updateFileStep "t2" (some 3) (some f5) = .ok (some f3) ∧
      f3.version < f5.version := by
  refine ⟨{ text := "t", languageID := "go", version := 5,
            normalizedFilename := "/a", uri := "file:///a" },
          { text := "t2", languageID := "go", version := 3,
            normalizedFilename := "/a", uri := "file:///a" }, ?_, rfl, by decide⟩
  rfl

/-- C9 amended: the store keeps exactly the versions the client supplies
(`UpdateFile` with a nil version preserves the old one), so the stored version
is non-decreasing across a step precisely when the supplied version is at least
the stored one — monotonicity holds only for non-decreasing client input. -/
theorem fileVersion_monotone_of_supplied_monotone (uri : DocumentURI) (f g : FileRef)
    (op : FileOp) (hsup : ∀ v, suppliedVersion op = some v → f.version ≤ v)
    (hstep : fileStep uri (some f) op = .ok (some g)) :
    f.version ≤ g.version := by
  cases op with
  | openOp lang v text =>
    simp only [fileStep, openFileStep] at hstep
    revert hstep
    split
    · intro hstep; exact absurd hstep (by simp)
    · intro hstep
      have hg := Option.some.inj (Except.ok.inj hstep)
      have : g.version = v := by rw [← hg]
      rw [this]
      exact hsup v rfl
  | updateOp text v =>
    simp only [fileStep, updateFileStep] at hstep
    have hg := Option.some.inj (Except.ok.inj hstep)
    have hv : g.version = v.getD f.version := by rw [← hg]
    cases v with
    | none => rw [hv]; exact le_refl _
    | some w => rw [hv]; exact hsup w rfl

/-- Concrete instantiation of `fileVersion_monotone_of_supplied_monotone`. -/
theorem fileVersion_monotone_witness :
    ({ version := 1 : FileRef }).version
      ≤ ({ version := 2, text := "t" : FileRef }).version :=
  fileVersion_monotone_of_supplied_monotone "file:///a" { version := 1 }
    { version := 2, text := "t" } (.updateOp "t" (some 2))
    (fun v hv => by cases hv; decide) rfl

/-! ### Lint debounce scheduler (LspHandler.ScheduleLinting) -/

/-- Go `types.EventType` (`EventTypeOpen` is `openDoc` here). -/
inductive EventType where
  | change
  | save
  | openDoc
deriving Repr, DecidableEq

/-- The single `lintTimer` slot of the Go `LspHandler`: one pending timer for
the whole handler, remembering its deadline and the URI and event captured by
the callback closure that armed it. -/
structure LintSched where
  timer : Option (Int × DocumentURI × EventType) := none
deriving Repr, DecidableEq

/-- Embedding of `ScheduleLinting`: a pending timer is merely `Reset` to a new
deadline — its callback still carries the URI and event of the call that armed
it; otherwise a fresh timer is armed for `now + debounce` capturing this
call's URI and event. -/
def scheduleLinting (debounce now : Int) (uri : DocumentURI) (ev : EventType)
    (s : LintSched) : LintSched :=
  match s.timer with
  | some (_, u0, e0) => { timer := some (now + debounce, u0, e0) }
  | none => { timer := some (now + debounce, uri, ev) }

/-- Timer semantics over a batch of `ScheduleLinting` calls in time order:
before each call the pending timer fires if its deadline has passed
(dispatching one lint run for the URI captured at arming time and clearing the
slot), then the call runs; after the last call the pending timer fires.
Dispatched lint runs are listed as (fire time, URI, event). -/
def processCalls (debounce : Int) :
    List (Int × DocumentURI × EventType) → LintSched → List (Int × DocumentURI × EventType)
  | [], s =>
    match s.timer with
    | some t => [t]
    | none => []
  | (t, u, e) :: rest, s =>
    match s.timer with
    | some (d, u0, e0) =>
      if d ≤ t then
        (d, u0, e0) :: processCalls debounce rest (scheduleLinting debounce t u e { timer := none })
      else processCalls debounce rest (scheduleLinting debounce t u e s)
    | none => processCalls debounce rest (scheduleLinting debounce t u e s)

/-- C5 counterexample: with debounce 2, a call for document `b` at time 1,
inside the window of document `a`'s call at time 0, is absorbed into `a`'s
pending timer — the only dispatched run is for `a`, and no run for `b` is
ever dispatched.  The timer slot is global, not per document, and the reset
keeps the first caller's URI. -/
theorem scheduleLinting_cross_document_suppression :
    processCalls 2 [(0, "file:///a", .change), (1, "file:///b", .change)] {}
        = [(3, "file:///a", .change)] ∧
    ("file:///a" : DocumentURI) ≠ "file:///b" ∧
    ∀ r ∈ processCalls 2 [(0, "file:///a", .change), (1, "file:///b", .change)] {},
      r.2.1 ≠ "file:///b" := by
  have hlist : processCalls 2 [(0, "file:///a", .change), (1, "file:///b", .change)] {}
      = [(3, "file:///a", .change)] := by decide
  refine ⟨hlist, by decide, ?_⟩
  intro r hr
  rw [hlist] at hr
  simp only [List.mem_singleton] at hr
  rw [hr]
  decide

/-- C5 amended: lint coalescing is global (a single timer slot): two
`ScheduleLinting` calls within `lintDebounce` of each other dispatch exactly
one run, firing once `lintDebounce` has elapsed since the last call, with the
URI and event captured by the first call — regardless of whether the second
call is for the same document. -/
theorem scheduleLinting_debounce_coalesces (db t1 t2 : Int) (u1 u2 : DocumentURI)
    (e1 e2 : EventType) (_h1 : t1 ≤ t2) (h2 : t2 < t1 + db) :
    processCalls db [(t1, u1, e1), (t2, u2, e2)] {} = [(t2 + db, u1, e1)] := by
  have hno : ¬ t1 + db ≤ t2 := by omega
  simp [processCalls, scheduleLinting, hno]

/-- Concrete instantiation of `scheduleLinting_debounce_coalesces`. -/
theorem scheduleLinting_debounce_coalesces_witness :
    processCalls 2 [(0, "file:///a", .change), (1, "file:///a", .save)] {}
        = [(3, "file:///a", .change)] := by
  have h := scheduleLinting_debounce_coalesces 2 0 1 "file:///a" "file:///a"
    .change .save (by decide) (by decide)
  simpa using h

/-! ### Paths: Go `filepath.Clean` and `filepath.Dir` (POSIX)

`matchRootPath` (handler.go) walks a path upward through `filepath.Dir`.
These are functional models of the Go standard library routines on
slash-separated paths, used to settle the walk's termination. -/

/-- Split on a separator character (Go `strings.Split` semantics). -/
def splitOnChar (sep : Char) : List Char → List (List Char)
  | [] => [[]]
  | c :: rest =>
    if c = sep then [] :: splitOnChar sep rest
    else
      match splitOnChar sep rest with
      | [] => [[c]]
      | l :: ls => (c :: l) :: ls

def dotdot : List Char := ['.', '.']

/-- Keep the path components: drop empty pieces (collapsing separator runs)
and `.` pieces. -/
def pathComps (s : List Char) : List (List Char) :=
  (splitOnChar '/' s).filter fun c => decide (c ≠ [] ∧ c ≠ ['.'])

/-- One step of Clean's `..` resolution: `..` pops the previous component when
there is a poppable one (for a rooted path it simply pops, never rising above
the root; for a relative path only non-`..` components can be popped, a
leading `..` is kept). -/
def processComp (rooted : Bool) (acc : List (List Char)) (c : List Char) :
    List (List Char) :=
  if c ≠ dotdot then acc ++ [c]
  else if rooted then acc.dropLast
  else if acc ≠ [] ∧ acc.getLast? ≠ some dotdot then acc.dropLast
  else acc ++ [dotdot]

def cleanComps (rooted : Bool) (cs : List (List Char)) : List (List Char) :=
  cs.foldl (processComp rooted) []

/-- Reassemble cleaned components: a rooted path gets its leading `/`, an
empty relative result is `.`. -/
def render (rooted : Bool) (cs : List (List Char)) : List Char :=
  if rooted then '/' :: List.intercalate ['/'] cs
  else if cs = [] then ['.']
  else List.intercalate ['/'] cs

/-- Functional model of Go `path/filepath.Clean` (POSIX), by its documented
algorithm: collapse separator runs, drop `.` components, resolve `..` against
preceding components, drop `..` at the root; the empty path cleans to `.`. -/
def goClean (s : List Char) : List Char :=
  if s = [] then ['.']
  else render (decide (s.head? = some '/')) (cleanComps (decide (s.head? = some '/')) (pathComps s))

/-- The prefix of `s` up to and including its final `/` (empty when `s` has no
separator): what Go `filepath.Dir` hands to `Clean`. -/
def upToLastSlash (s : List Char) : List Char :=
  (s.reverse.dropWhile fun c => decide (c ≠ '/')).reverse

/-- Functional model of Go `filepath.Dir` (POSIX): all but the last element,
cleaned; `.` when the path has no separator. -/
def goDir (s : List Char) : List Char :=
  goClean (upToLastSlash s)

/-! ### matchRootPath (handler.go) -/

/-- One entry of Go `os.ReadDir`'s result. -/
structure DirEntry where
  name : String
  isDir : Bool
deriving Repr, DecidableEq

/-- The marker check of `matchRootPath`'s inner loops: a marker with a
trailing `/` matches directory entries after `strings.TrimRight(marker, "/")`,
any other marker matches file entries; `globMatch` abstracts the Go standard
library `filepath.Match` (pattern first).  Returning true means the Go loop
returns the current directory. -/
def dirHasMarker (entries : List DirEntry) (markers : List String)
    (globMatch : String → String → Bool) : Bool :=
  entries.any fun file =>
    markers.any fun marker =>
      if marker.data.getLast? = some '/' then
        file.isDir && globMatch ⟨marker.data.rdropWhile fun c => c = '/'⟩ file.name
      else
        !file.isDir && globMatch marker file.name

/-- Fuel-indexed embedding of the upward walk of `matchRootPath` (handler.go):
while `dir ≠ prev`, check the markers against the directory's entries, then
advance `dir, prev := Dir(dir), dir`.  The fuel only bounds the iteration
count; `matchRootPath_terminates` shows the wrapper below always supplies
enough.  Exhausted fuel gives `""` (unreachable from the wrapper). -/
def matchRootPathFuel (readDir : String → List DirEntry) (markers : List String)
    (globMatch : String → String → Bool) : Nat → List Char → List Char → List Char
  | 0, _, _ => []
  | fuel + 1, dir, prev =>
    if dir = prev then []
    else if dirHasMarker (readDir ⟨dir⟩) markers globMatch then dir
    else matchRootPathFuel readDir markers globMatch fuel (goDir dir) dir

/-- Embedding of `matchRootPath` (handler.go); `readDir` abstracts
`os.ReadDir` and `globMatch` abstracts `filepath.Match`. -/
def matchRootPath (readDir : String → List DirEntry)
    (globMatch : String → String → Bool) (fname : String) (markers : List String) : String :=
  ⟨matchRootPathFuel readDir markers globMatch
      (2 * (goDir fname.data).length + 2) (goDir fname.data) []⟩

/-! ### Shape of cleaned paths

A cleaned path is a root flag plus a stack of components: each component is
non-empty, is not `.`, contains no separator, and (for relative paths) `..`
components form a prefix of the stack; rooted stacks contain no `..` at all. -/

def isCleanComp (c : List Char) : Prop := c ≠ [] ∧ c ≠ ['.'] ∧ '/' ∉ c

def ddFree (ds : List (List Char)) : Prop := ∀ c ∈ ds, c ≠ dotdot

def CleanStack (rooted : Bool) (cs : List (List Char)) : Prop :=
  (∀ c ∈ cs, isCleanComp c) ∧
  (match rooted with
   | true => ddFree cs
   | false => ∃ k ds, cs = List.replicate k dotdot ++ ds ∧ ddFree ds)

theorem cleanStack_nil (rooted : Bool) : CleanStack rooted [] := by
  cases rooted with
  | true => exact ⟨by simp, by intro c hc; simp at hc⟩
  | false => exact ⟨by simp, ⟨0, [], by simp, by intro c hc; simp at hc⟩⟩

theorem splitOnChar_ne_nil (sep : Char) (s : List Char) : splitOnChar sep s ≠ [] := by
  cases s with
  | nil => simp [splitOnChar]
  | cons c rest =>
    by_cases h : c = sep
    · simp [splitOnChar, h]
    · simp only [splitOnChar, if_neg h]
      cases splitOnChar sep rest <;> simp

theorem splitOnChar_not_mem (sep : Char) (s : List Char) :
    ∀ p ∈ splitOnChar sep s, sep ∉ p := by
  induction s with
  | nil =>
    intro p hp
    simp only [splitOnChar, List.mem_singleton] at hp
    simp [hp]
  | cons c rest ih =>
    by_cases h : c = sep
    · intro p hp
      simp only [splitOnChar, if_pos h, List.mem_cons] at hp
      rcases hp with rfl | hp
      · simp
      · exact ih p hp
    · intro p hp
      simp only [splitOnChar, if_neg h] at hp
      cases hs : splitOnChar sep rest with
      | nil => exact absurd hs (splitOnChar_ne_nil sep rest)
      | cons l ls =>
        rw [hs] at hp
        rcases List.mem_cons.mp hp with rfl | hp
        · intro hmem
          rcases List.mem_cons.mp hmem with h1 | h1
          · exact h h1.symm
          · exact ih l (hs ▸ List.mem_cons_self l ls) h1
        · exact ih p (hs ▸ List.mem_cons_of_mem l hp)

theorem pathComps_clean (s : List Char) : ∀ c ∈ pathComps s, isCleanComp c := by
  intro c hc
  have hmem := List.mem_of_mem_filter hc
  have hpred := List.of_mem_filter hc
  simp only [decide_eq_true_eq] at hpred
  exact ⟨hpred.1, hpred.2, splitOnChar_not_mem '/' s c hmem⟩

theorem replicate_getLast? {α : Type} (n : Nat) (a : α) (h : 0 < n) :
    (List.replicate n a).getLast? = some a := by
  cases n with
  | zero => omega
  | succ m =>
    rw [List.replicate_succ']
    exact List.getLast?_concat _

theorem dropLast_replicate {α : Type} (n : Nat) (a : α) :
    (List.replicate n a).dropLast = List.replicate (n - 1) a := by
  cases n with
  | zero => simp
  | succ m =>
    rw [List.replicate_succ']
    simp [List.dropLast_concat]

theorem cleanStack_dropLast (rooted : Bool) (cs : List (List Char))
    (h : CleanStack rooted cs) : CleanStack rooted cs.dropLast := by
  obtain ⟨hcomps, hshape⟩ := h
  refine ⟨fun x hx => hcomps x (List.dropLast_subset _ hx), ?_⟩
  cases rooted with
  | true =>
    simp only [if_true] at hshape ⊢
    exact fun x hx => hshape x (List.dropLast_subset _ hx)
  | false =>
    simp only [if_false] at hshape ⊢
    obtain ⟨k, ds, heq, hdsf⟩ := hshape
    cases hds : ds with
    | nil =>
      subst hds
      refine ⟨k - 1, [], ?_, by simp [ddFree]⟩
      rw [heq]
      simp [dropLast_replicate]
    | cons d ds' =>
      refine ⟨k, ds.dropLast, ?_, fun x hx => hdsf x (List.dropLast_subset _ hx)⟩
      rw [heq, List.dropLast_append_of_ne_nil _ (by simp [hds])]

theorem dotdot_cleanComp : isCleanComp dotdot := ⟨by decide, by decide, by decide⟩

theorem processComp_not_dd (rooted : Bool) (acc : List (List Char)) (c : List Char)
    (h : c ≠ dotdot) : processComp rooted acc c = acc ++ [c] := by
  unfold processComp
  rw [if_pos h]

theorem processComp_dd_rooted (acc : List (List Char)) :
    processComp true acc dotdot = acc.dropLast := by
  simp [processComp]

theorem processComp_dd_pop (acc : List (List Char))
    (h : acc ≠ [] ∧ acc.getLast? ≠ some dotdot) :
    processComp false acc dotdot = acc.dropLast := by
  simp [processComp, h]

theorem processComp_dd_push (acc : List (List Char))
    (h : ¬(acc ≠ [] ∧ acc.getLast? ≠ some dotdot)) :
    processComp false acc dotdot = acc ++ [dotdot] := by
  simp only [processComp, ite_not]
  rw [if_pos trivial, if_neg (by simp), if_neg h]

theorem processComp_preserves (rooted : Bool) (acc : List (List Char)) (c : List Char)
    (hacc : CleanStack rooted acc) (hc : isCleanComp c) :
    CleanStack rooted (processComp rooted acc c) := by
  obtain ⟨hcomps, hshape⟩ := hacc
  by_cases hdd : c = dotdot
  · subst hdd
    cases rooted with
    | true =>
      rw [processComp_dd_rooted]
      exact cleanStack_dropLast true acc ⟨hcomps, hshape⟩
    | false =>
      obtain ⟨k, ds, heq, hdsf⟩ := hshape
      by_cases hcond : acc ≠ [] ∧ acc.getLast? ≠ some dotdot
      · rw [processComp_dd_pop acc hcond]
        exact cleanStack_dropLast false acc ⟨hcomps, ⟨k, ds, heq, hdsf⟩⟩
      · rw [processComp_dd_push acc hcond]
        refine ⟨?_, ?_⟩
        · intro x hx
          rcases List.mem_append.mp hx with hx | hx
          · exact hcomps x hx
          · rw [List.mem_singleton.mp hx]
            exact dotdot_cleanComp
        · by_cases hnil : acc = []
          · exact ⟨1, [], by simp [hnil, List.replicate], by intro x hx; simp at hx⟩
          · have hlast : acc.getLast? = some dotdot := by
              by_contra hne
              exact hcond ⟨hnil, hne⟩
            have hds : ds = [] := by
              cases hds2 : ds with
              | nil => rfl
              | cons d ds' =>
                rw [hds2] at heq hdsf
                rw [heq, List.getLast?_append_of_ne_nil _ (by simp)] at hlast
                have hmem : dotdot ∈ d :: ds' := by
                  obtain ⟨hne', heq'⟩ := List.mem_getLast?_eq_getLast
                    (show dotdot ∈ (d :: ds').getLast? from hlast)
                  rw [heq']
                  exact List.getLast_mem hne'
                exact absurd rfl (hdsf dotdot hmem)
            subst hds
            refine ⟨k + 1, [], ?_, by intro x hx; simp at hx⟩
            rw [heq, List.replicate_succ']
            simp
  · rw [processComp_not_dd rooted acc c hdd]
    refine ⟨?_, ?_⟩
    · intro x hx
      rcases List.mem_append.mp hx with hx | hx
      · exact hcomps x hx
      · rw [List.mem_singleton.mp hx]
        exact hc
    · cases rooted with
      | true =>
        intro x hx
        rcases List.mem_append.mp hx with hx | hx
        · exact hshape x hx
        · rw [List.mem_singleton.mp hx]
          exact hdd
      | false =>
        obtain ⟨k, ds, heq, hdsf⟩ := hshape
        refine ⟨k, ds ++ [c], by rw [heq, List.append_assoc], ?_⟩
        intro x hx
        rcases List.mem_append.mp hx with hx | hx
        · exact hdsf x hx
        · rw [List.mem_singleton.mp hx]
          exact hdd

theorem cleanComps_clean (rooted : Bool) (cs : List (List Char))
    (h : ∀ c ∈ cs, isCleanComp c) : CleanStack rooted (cleanComps rooted cs) := by
  suffices hgen : ∀ (l : List (List Char)) (acc : List (List Char)), CleanStack rooted acc →
      (∀ c ∈ l, isCleanComp c) → CleanStack rooted (l.foldl (processComp rooted) acc) by
    exact hgen cs [] (cleanStack_nil rooted) h
  intro l
  induction l with
  | nil => intro acc hacc _; exact hacc
  | cons c l' ih =>
    intro acc hacc hl
    rw [List.foldl_cons]
    exact ih _ (processComp_preserves rooted acc c hacc (hl c (List.mem_cons_self c l')))
      (fun x hx => hl x (List.mem_cons_of_mem c hx))

theorem replicate_prefix_of_eq (k : Nat) (ds acc tail : List (List Char))
    (h : List.replicate k dotdot ++ ds = acc ++ dotdot :: tail) (hdsf : ddFree ds) :
    acc = List.replicate acc.length dotdot := by
  induction acc generalizing k with
  | nil => rfl
  | cons a acc' ih =>
    cases k with
    | zero =>
      simp only [List.replicate, List.nil_append] at h
      have hmem : dotdot ∈ ds := by
        rw [h]
        exact List.mem_cons_of_mem a (List.mem_append_right acc' (List.mem_cons_self _ _))
      exact absurd rfl (hdsf dotdot hmem)
    | succ k' =>
      rw [List.replicate_succ] at h
      simp only [List.cons_append, List.cons.injEq] at h
      obtain ⟨ha, h'⟩ := h
      subst ha
      rw [List.length_cons, List.replicate_succ]
      exact congrArg (dotdot :: ·) (ih k' h')

theorem foldl_processComp_id (rooted : Bool) (cs : List (List Char)) :
    ∀ acc, CleanStack rooted (acc ++ cs) → cs.foldl (processComp rooted) acc = acc ++ cs := by
  induction cs with
  | nil =>
    intro acc _
    simp
  | cons c cs' ih =>
    intro acc hclean
    have hstep : processComp rooted acc c = acc ++ [c] := by
      by_cases hdd : c = dotdot
      · subst hdd
        cases rooted with
        | true =>
          obtain ⟨-, hsh⟩ := hclean
          exact absurd rfl
            (hsh dotdot (List.mem_append_right acc (List.mem_cons_self _ _)))
        | false =>
          obtain ⟨-, k, ds, heq, hdsf⟩ := hclean
          have hacc : acc = List.replicate acc.length dotdot :=
            replicate_prefix_of_eq k ds acc cs' heq.symm hdsf
          rw [processComp_dd_push acc ?hneg]
          case hneg =>
            rintro ⟨hne, hlast⟩
            refine hlast ?_
            rw [hacc]
            exact replicate_getLast? _ _ (by simpa using List.length_pos.mpr hne)
      · exact processComp_not_dd rooted acc c hdd
    rw [List.foldl_cons, hstep]
    have hrec := ih (acc ++ [c]) (by rwa [List.append_assoc, List.singleton_append])
    rw [hrec, List.append_assoc, List.singleton_append]

theorem cleanComps_id (rooted : Bool) (cs : List (List Char)) (h : CleanStack rooted cs) :
    cleanComps rooted cs = cs :=
  foldl_processComp_id rooted cs [] (by simpa)

theorem intercalate_cons_ne_nil (c : List Char) (cs : List (List Char)) (h : cs ≠ []) :
    List.intercalate ['/'] (c :: cs) = c ++ '/' :: List.intercalate ['/'] cs := by
  cases cs with
  | nil => exact absurd rfl h
  | cons d t => simp [List.intercalate, List.intersperse_cons_cons]

theorem intercalate_singleton (c : List Char) : List.intercalate ['/'] [c] = c := by
  simp [List.intercalate]

theorem intercalate_snoc (ds : List (List Char)) (c : List Char) (h : ds ≠ []) :
    List.intercalate ['/'] (ds ++ [c]) = List.intercalate ['/'] ds ++ '/' :: c := by
  induction ds with
  | nil => exact absurd rfl h
  | cons d ds' ih =>
    by_cases hds : ds' = []
    · subst hds
      rw [List.cons_append, List.nil_append, intercalate_cons_ne_nil d [c] (by simp),
        intercalate_singleton, intercalate_singleton]
    · rw [List.cons_append, intercalate_cons_ne_nil d (ds' ++ [c]) (by simp [hds]),
        ih hds, intercalate_cons_ne_nil d ds' hds]
      simp [List.append_assoc]

theorem render_true_def (cs : List (List Char)) :
    render true cs = '/' :: List.intercalate ['/'] cs := rfl

theorem render_false_ne_nil (cs : List (List Char)) (h : cs ≠ []) :
    render false cs = List.intercalate ['/'] cs := by
  unfold render
  rw [if_neg (by simp), if_neg h]

theorem render_snoc (rooted : Bool) (ds : List (List Char)) (c : List Char) (h : ds ≠ []) :
    render rooted (ds ++ [c]) = render rooted ds ++ '/' :: c := by
  cases rooted with
  | true =>
    rw [render_true_def, render_true_def, intercalate_snoc ds c h, List.cons_append]
  | false =>
    rw [render_false_ne_nil _ (by simp [h]), render_false_ne_nil _ h, intercalate_snoc ds c h]

theorem dropWhile_append_all {α : Type} (p : α → Bool) (xs ys : List α)
    (h : ∀ x ∈ xs, p x = true) :
    List.dropWhile p (xs ++ ys) = List.dropWhile p ys := by
  induction xs with
  | nil => simp
  | cons a xs' ih =>
    rw [List.cons_append, List.dropWhile_cons, if_pos (h a (List.mem_cons_self _ _))]
    exact ih fun x hx => h x (List.mem_cons_of_mem a hx)

theorem upToLastSlash_no_slash (c : List Char) (h : '/' ∉ c) : upToLastSlash c = [] := by
  unfold upToLastSlash
  have hd : List.dropWhile (fun x => decide (x ≠ '/')) c.reverse = [] := by
    rw [List.dropWhile_eq_nil_iff]
    intro x hx
    simp only [decide_eq_true_eq]
    intro heq
    exact h (heq ▸ List.mem_reverse.mp hx)
  rw [hd]
  rfl

theorem upToLastSlash_append_slash (R c : List Char) (h : '/' ∉ c) :
    upToLastSlash (R ++ '/' :: c) = R ++ ['/'] := by
  unfold upToLastSlash
  rw [List.reverse_append, List.reverse_cons, List.append_assoc,
    dropWhile_append_all _ c.reverse _ ?hall, List.singleton_append,
    List.dropWhile_cons, if_neg (by simp), List.reverse_cons, List.reverse_reverse]
  case hall =>
    intro x hx
    simp only [decide_eq_true_eq]
    intro heq
    exact h (heq ▸ List.mem_reverse.mp hx)

theorem splitOnChar_append_sep (sep : Char) (xs ys : List Char) (h : sep ∉ xs) :
    splitOnChar sep (xs ++ sep :: ys) = xs :: splitOnChar sep ys := by
  induction xs with
  | nil => simp [splitOnChar]
  | cons x xs' ih =>
    have hx : ¬ x = sep := fun heq => h (by rw [heq]; exact List.mem_cons_self _ _)
    rw [List.cons_append]
    simp only [splitOnChar, if_neg hx]
    rw [ih fun hm => h (List.mem_cons_of_mem _ hm)]

theorem split_intercalate_slash (ds : List (List Char)) (hne : ds ≠ [])
    (hds : ∀ c ∈ ds, '/' ∉ c) :
    splitOnChar '/' (List.intercalate ['/'] ds ++ ['/']) = ds ++ [[]] := by
  induction ds with
  | nil => exact absurd rfl hne
  | cons d ds' ih =>
    by_cases h : ds' = []
    · subst h
      rw [intercalate_singleton]
      rw [show (['/'] : List Char) = '/' :: [] from rfl,
        splitOnChar_append_sep '/' d [] (hds d (List.mem_cons_self _ _))]
      rfl
    · rw [intercalate_cons_ne_nil d ds' h, List.cons_append, List.append_assoc,
        List.cons_append,
        splitOnChar_append_sep '/' d _ (hds d (List.mem_cons_self _ _)),
        ih h fun c hc => hds c (List.mem_cons_of_mem d hc)]

theorem filter_comps (ds : List (List Char)) (h : ∀ c ∈ ds, isCleanComp c) :
    List.filter (fun c => decide (c ≠ [] ∧ c ≠ ['.'])) (ds ++ [[]]) = ds := by
  rw [List.filter_append, List.filter_eq_self.mpr, show
    List.filter (fun c => decide (c ≠ [] ∧ c ≠ ['.'])) [[]] = [] from rfl, List.append_nil]
  intro c hc
  have hcc := h c hc
  simp only [decide_eq_true_eq]
  exact ⟨hcc.1, hcc.2.1⟩

theorem goClean_render_slash (rooted : Bool) (ds : List (List Char))
    (h : CleanStack rooted ds) :
    goClean (render rooted ds ++ ['/']) = render rooted ds := by
  obtain ⟨hcomps, hshape⟩ := h
  by_cases hds : ds = []
  · subst hds
    cases rooted with
    | true => decide
    | false => decide
  · cases rooted with
    | true =>
      have ht : render true ds ++ ['/'] = '/' :: (List.intercalate ['/'] ds ++ ['/']) := by
        rw [render_true_def, List.cons_append]
      rw [ht]
      unfold goClean
      rw [if_neg (by simp)]
      rw [decide_eq_true
        (show ('/' :: (List.intercalate ['/'] ds ++ ['/'])).head? = some '/' from rfl)]
      have hsplit : pathComps ('/' :: (List.intercalate ['/'] ds ++ ['/'])) = ds := by
        unfold pathComps
        rw [show splitOnChar '/' ('/' :: (List.intercalate ['/'] ds ++ ['/']))
            = [] :: splitOnChar '/' (List.intercalate ['/'] ds ++ ['/']) from by
          simp [splitOnChar]]
        rw [split_intercalate_slash ds hds fun c hc => (hcomps c hc).2.2]
        rw [show List.filter (fun c => decide (c ≠ [] ∧ c ≠ ['.'])) ([] :: (ds ++ [[]]))
            = List.filter (fun c => decide (c ≠ [] ∧ c ≠ ['.'])) (ds ++ [[]]) from rfl]
        exact filter_comps ds hcomps
      rw [hsplit, cleanComps_id true ds ⟨hcomps, hshape⟩]
    | false =>
      obtain ⟨d, ds'', rfl⟩ : ∃ d ds'', ds = d :: ds'' := by
        cases ds with
        | nil => exact absurd rfl hds
        | cons d t => exact ⟨d, t, rfl⟩
      have hdne : d ≠ [] := (hcomps d (List.mem_cons_self _ _)).1
      obtain ⟨h0, d', rfl⟩ : ∃ h0 d', d = h0 :: d' := by
        cases d with
        | nil => exact absurd rfl hdne
        | cons h0 d' => exact ⟨h0, d', rfl⟩
      have hh0 : h0 ≠ '/' := by
        intro heq
        exact (hcomps _ (List.mem_cons_self _ _)).2.2 (heq ▸ List.mem_cons_self _ _)
      obtain ⟨rest, hrest⟩ : ∃ rest,
          List.intercalate ['/'] ((h0 :: d') :: ds'') = h0 :: rest := by
        by_cases h2 : ds'' = []
        · subst h2
          exact ⟨d', by rw [intercalate_singleton]⟩
        · exact ⟨d' ++ '/' :: List.intercalate ['/'] ds'',
            by rw [intercalate_cons_ne_nil _ _ h2, List.cons_append]⟩
      have ht : render false ((h0 :: d') :: ds'') ++ ['/']
          = h0 :: (rest ++ ['/']) := by
        rw [render_false_ne_nil _ hds, hrest, List.cons_append]
      rw [ht]
      unfold goClean
      rw [if_neg (by simp)]
      rw [decide_eq_false
        (show ¬ (h0 :: (rest ++ ['/'])).head? = some '/' by simp [hh0])]
      have hsplit : pathComps (h0 :: (rest ++ ['/'])) = (h0 :: d') :: ds'' := by
        unfold pathComps
        rw [show h0 :: (rest ++ ['/']) = (h0 :: rest) ++ ['/'] from rfl, ← hrest]
        rw [split_intercalate_slash _ hds fun c hc => (hcomps c hc).2.2]
        exact filter_comps _ hcomps
      rw [hsplit, cleanComps_id false _ ⟨hcomps, hshape⟩]

theorem goDir_render_nil (rooted : Bool) : goDir (render rooted []) = render rooted [] := by
  cases rooted with
  | true => decide
  | false => decide

theorem render_comps_ne_nil (rooted : Bool) (cs : List (List Char))
    (h : CleanStack rooted cs) : render rooted cs ≠ [] := by
  cases rooted with
  | true => rw [render_true_def]; simp
  | false =>
    by_cases hcs : cs = []
    · subst hcs; decide
    · rw [render_false_ne_nil _ hcs]
      cases cs with
      | nil => exact absurd rfl hcs
      | cons d t =>
        by_cases ht : t = []
        · subst ht
          rw [intercalate_singleton]
          exact (h.1 d (List.mem_cons_self _ _)).1
        · rw [intercalate_cons_ne_nil d t ht]
          have hd : d ≠ [] := (h.1 d (List.mem_cons_self _ _)).1
          cases d with
          | nil => exact absurd rfl hd
          | cons x xs => simp

theorem goDir_render (rooted : Bool) (cs : List (List Char))
    (h : CleanStack rooted cs) (hne : cs ≠ []) :
    goDir (render rooted cs) = render rooted cs.dropLast := by
  obtain ⟨ds, c, rfl⟩ : ∃ ds c, cs = ds ++ [c] :=
    ⟨cs.dropLast, cs.getLast hne, (List.dropLast_append_getLast hne).symm⟩
  rw [List.dropLast_concat]
  have hcslash : '/' ∉ c :=
    (h.1 c (List.mem_append_right ds (List.mem_singleton.mpr rfl))).2.2
  by_cases hds : ds = []
  · subst hds
    rw [List.nil_append]
    cases rooted with
    | true =>
      rw [render_true_def, intercalate_singleton]
      unfold goDir
      rw [show ('/' :: c : List Char) = [] ++ '/' :: c from rfl,
        upToLastSlash_append_slash [] c hcslash]
      decide
    | false =>
      rw [render_false_ne_nil _ (by simp), intercalate_singleton]
      unfold goDir
      rw [upToLastSlash_no_slash c hcslash]
      decide
  · rw [render_snoc rooted ds c hds]
    unfold goDir
    rw [upToLastSlash_append_slash _ c hcslash]
    refine goClean_render_slash rooted ds ?_
    have hd := cleanStack_dropLast rooted (ds ++ [c]) h
    rwa [List.dropLast_concat] at hd

theorem render_length_ge (rooted : Bool) (cs : List (List Char))
    (h : CleanStack rooted cs) : cs.length ≤ (render rooted cs).length := by
  induction cs using List.reverseRecOn with
  | nil => cases rooted <;> simp [render]
  | append_singleton ds c ih =>
    have hds_clean : CleanStack rooted ds := by
      have hd := cleanStack_dropLast rooted (ds ++ [c]) h
      rwa [List.dropLast_concat] at hd
    by_cases hds : ds = []
    · subst hds
      have hc : c ≠ [] := (h.1 c (by simp)).1
      have hc1 : 1 ≤ c.length := by
        cases c with
        | nil => exact absurd rfl hc
        | cons x xs => simp
      cases rooted with
      | true =>
        rw [render_true_def, List.nil_append, intercalate_singleton]
        simp [Nat.le_succ_of_le hc1]
      | false =>
        rw [render_false_ne_nil _ (by simp), List.nil_append, intercalate_singleton]
        simp [hc1]
    · rw [render_snoc rooted ds c hds]
      have h1 := ih hds_clean
      have h2 : (ds ++ [c]).length = ds.length + 1 := by simp
      have h3 : (render rooted ds ++ '/' :: c).length
          = (render rooted ds).length + (c.length + 1) := by simp
      omega

theorem render_dropLast_ne (rooted : Bool) (cs : List (List Char))
    (h : CleanStack rooted cs) (hne : cs ≠ []) :
    render rooted cs.dropLast ≠ render rooted cs := by
  obtain ⟨ds, c, rfl⟩ : ∃ ds c, cs = ds ++ [c] :=
    ⟨cs.dropLast, cs.getLast hne, (List.dropLast_append_getLast hne).symm⟩
  rw [List.dropLast_concat]
  by_cases hds : ds = []
  · subst hds
    rw [List.nil_append]
    have hc : c ≠ [] := (h.1 c (by simp)).1
    cases rooted with
    | true =>
      rw [render_true_def, render_true_def, intercalate_singleton]
      intro heq
      have h4 : List.intercalate ['/'] ([] : List (List Char)) = c := (List.cons.inj heq).2
      rw [show List.intercalate ['/'] ([] : List (List Char)) = [] from rfl] at h4
      exact hc h4.symm
    | false =>
      have hc2 : c ≠ ['.'] := (h.1 c (by simp)).2.1
      rw [show render false ([] : List (List Char)) = ['.'] from rfl,
        render_false_ne_nil [c] (by simp), intercalate_singleton]
      intro heq
      exact hc2 heq.symm
  · rw [render_snoc rooted ds c hds]
    intro heq
    have hlen := congrArg List.length heq
    simp only [List.length_append, List.length_cons] at hlen
    omega

theorem goClean_cleanForm (s : List Char) :
    ∃ (rooted : Bool) (cs : List (List Char)),
      CleanStack rooted cs ∧ goClean s = render rooted cs := by
  by_cases hs : s = []
  · exact ⟨false, [], cleanStack_nil false, by simp [hs, goClean, render]⟩
  · exact ⟨decide (s.head? = some '/'), _,
      cleanComps_clean _ _ (pathComps_clean s), by simp [goClean, hs]⟩

theorem matchRootLoop_base (rd : String → List DirEntry) (mk : List String)
    (gm : String → String → Bool) (rooted : Bool) (prev : List Char)
    (hprev : prev ≠ render rooted []) :
    ∃ r : List Char,
      (r = [] ∨ dirHasMarker (rd ⟨r⟩) mk gm = true) ∧
      ∀ fuel, 2 ≤ fuel →
        matchRootPathFuel rd mk gm fuel (render rooted []) prev = r := by
  by_cases hmark : dirHasMarker (rd ⟨render rooted []⟩) mk gm = true
  · refine ⟨render rooted [], Or.inr hmark, ?_⟩
    intro fuel hfuel
    cases fuel with
    | zero => omega
    | succ f =>
      simp only [matchRootPathFuel]
      rw [if_neg fun heq => hprev heq.symm, if_pos hmark]
  · refine ⟨[], Or.inl rfl, ?_⟩
    intro fuel hfuel
    cases fuel with
    | zero => omega
    | succ f =>
      cases f with
      | zero => omega
      | succ f2 =>
        simp only [matchRootPathFuel]
        rw [if_neg fun heq => hprev heq.symm, if_neg hmark, goDir_render_nil, if_pos rfl]

theorem matchRootLoop_stabilizes (rd : String → List DirEntry) (mk : List String)
    (gm : String → String → Bool) :
    ∀ (n : Nat) (cs : List (List Char)) (rooted : Bool) (prev : List Char),
      cs.length ≤ n → CleanStack rooted cs → prev ≠ render rooted cs →
      ∃ r : List Char,
        (r = [] ∨ dirHasMarker (rd ⟨r⟩) mk gm = true) ∧
        ∀ fuel, cs.length + 2 ≤ fuel →
          matchRootPathFuel rd mk gm fuel (render rooted cs) prev = r := by
  intro n
  induction n with
  | zero =>
    intro cs rooted prev hlen hclean hprev
    have hcs : cs = [] := List.length_eq_zero.mp (Nat.le_zero.mp hlen)
    subst hcs
    exact matchRootLoop_base rd mk gm rooted prev hprev
  | succ n ih =>
    intro cs rooted prev hlen hclean hprev
    by_cases hcs : cs = []
    · subst hcs
      exact matchRootLoop_base rd mk gm rooted prev hprev
    · by_cases hmark : dirHasMarker (rd ⟨render rooted cs⟩) mk gm = true
      · refine ⟨render rooted cs, Or.inr hmark, ?_⟩
        intro fuel hfuel
        cases fuel with
        | zero => omega
        | succ f =>
          simp only [matchRootPathFuel]
          rw [if_neg fun heq => hprev heq.symm, if_pos hmark]
      · have hpos : 1 ≤ cs.length := by
          cases cs with
          | nil => exact absurd rfl hcs
          | cons a t => simp
        have hlen2 : cs.dropLast.length ≤ n := by
          have h1 : cs.dropLast.length = cs.length - 1 := by simp [List.length_dropLast]
          omega
        have hcl2 := cleanStack_dropLast rooted cs hclean
        have hne2 : render rooted cs ≠ render rooted cs.dropLast :=
          fun heq => render_dropLast_ne rooted cs hclean hcs heq.symm
        obtain ⟨r, hr, hrun⟩ := ih cs.dropLast rooted (render rooted cs) hlen2 hcl2 hne2
        refine ⟨r, hr, ?_⟩
        intro fuel hfuel
        cases fuel with
        | zero => omega
        | succ f =>
          simp only [matchRootPathFuel]
          rw [if_neg fun heq => hprev heq.symm, if_neg hmark,
            goDir_render rooted cs hclean hcs]
          refine hrun f ?_
          have h1 : cs.dropLast.length = cs.length - 1 := by simp [List.length_dropLast]
          omega

/-- C10: the upward walk of `matchRootPath` terminates for every filename,
marker list, file system, and glob matcher: iterating `filepath.Dir` from the
starting directory reaches a fixed point, the fuelled loop stabilizes (every
fuel beyond the wrapper's bound returns the same answer, so the walk ends
rather than exhausting fuel), and the returned value is either a directory
whose entries match a marker or the empty string. -/
theorem matchRootPath_terminates (readDir : String → List DirEntry)
    (globMatch : String → String → Bool) (fname : String) (markers : List String) :
    ∃ r : String,
      matchRootPath readDir globMatch fname markers = r ∧
      (∀ fuel, 2 * (goDir fname.data).length + 2 ≤ fuel →
        matchRootPathFuel readDir markers globMatch fuel (goDir fname.data) [] = r.data) ∧
      (r = "" ∨ dirHasMarker (readDir r) markers globMatch = true) := by
  obtain ⟨rooted, cs, hcl, heq⟩ := goClean_cleanForm (upToLastSlash fname.data)
  have hdir : goDir fname.data = render rooted cs := heq
  have hlen1 : cs.length ≤ (render rooted cs).length := render_length_ge rooted cs hcl
  have hne0 : ([] : List Char) ≠ render rooted cs :=
    fun heq0 => render_comps_ne_nil rooted cs hcl heq0.symm
  obtain ⟨r, hr, hrun⟩ :=
    matchRootLoop_stabilizes readDir markers globMatch cs.length cs rooted [] le_rfl hcl hne0
  have hbound : ∀ fuel, 2 * (goDir fname.data).length + 2 ≤ fuel → cs.length + 2 ≤ fuel := by
    intro fuel hf
    rw [hdir] at hf
    omega
  refine ⟨⟨r⟩, ?_, ?_, ?_⟩
  · show String.mk (matchRootPathFuel readDir markers globMatch
        (2 * (goDir fname.data).length + 2) (goDir fname.data) []) = ⟨r⟩
    refine congrArg String.mk ?_
    rw [hdir]
    exact hrun _ (by omega)
  · intro fuel hf
    rw [hdir]
    exact hrun fuel (hbound fuel hf)
  · rcases hr with hr | hr
    · exact Or.inl (by rw [hr])
    · exact Or.inr hr

/-! ### Config selection (utils.go, lint.go, formatting.go) -/

/-- Go `types.Wildcard`. -/
def Wildcard : String := "="

/-- Embedding of `getAllConfigsForLang` (utils.go): the language's own entry
followed by the wildcard entry; Go maps become association lists with unique
keys. -/
def getAllConfigsForLang (allConfigs : List (String × List Language))
    (langId : String) : List Language :=
  (List.lookup langId allConfigs).getD [] ++ (List.lookup Wildcard allConfigs).getD []

/-- Embedding of `boolOrDefault` (utils.go): tri-state booleans default when
unset. -/
def boolOrDefault (b : Option Bool) (dflt : Bool) : Bool :=
  b.getD dflt

/-- Go `core.LangHandler` (handler.go). -/
structure LangHandler where
  configs : List (String × List Language)
  files : List (DocumentURI × FileRef)
  rootPath : String := ""

/-- Embedding of `findRootPath` (handler.go). -/
def findRootPath (readDir : String → List DirEntry) (globMatch : String → String → Bool)
    (h : LangHandler) (fname : String) (lang : Language) : String :=
  if matchRootPath readDir globMatch fname lang.rootMarkers ≠ "" then
    matchRootPath readDir globMatch fname lang.rootMarkers
  else h.rootPath

/-- Embedding of `getLintConfigsForDocument` (lint.go): keep configs with a
lint command, a satisfied `requireMarker` constraint, and a passing event gate
(unset gates default to true). -/
def getLintConfigsForDocument (readDir : String → List DirEntry)
    (globMatch : String → String → Bool) (fname langId : String)
    (allConfigs : List (String × List Language)) (eventType : EventType) :
    List Language :=
  (getAllConfigsForLang allConfigs langId).filter fun cfg =>
    decide (cfg.lintCommand ≠ "")
      && !(decide (matchRootPath readDir globMatch fname cfg.rootMarkers = "")
            && cfg.requireMarker)
      && (match eventType with
          | .openDoc => boolOrDefault cfg.lintAfterOpen true
          | .change => boolOrDefault cfg.lintOnChange true
          | .save => boolOrDefault cfg.lintOnSave true)

/-- Embedding of `getFormatConfigsForDocument` (formatting.go); its Go error
return is always nil. -/
def getFormatConfigsForDocument (readDir : String → List DirEntry)
    (globMatch : String → String → Bool) (fname langId : String)
    (allConfigs : List (String × List Language)) : List Language :=
  (getAllConfigsForLang allConfigs langId).filter fun cfg =>
    decide (cfg.formatCommand ≠ "")
      && !(decide (matchRootPath readDir globMatch fname cfg.rootMarkers = "")
            && cfg.requireMarker)

/-! ### RunAllLinters diagnostics traffic (lint.go) -/

structure PublishDiagnosticsParams where
  uri : DocumentURI
  diagnostics : List Diagnostic
  version : Int
deriving Repr, DecidableEq

/-- Embedding of the diagnostics-channel traffic of `RunAllLinters` (lint.go).
`lintResult` abstracts `lintDocument` (subprocess plus errorformat scan) per
selected config; `order` is the completion order of the per-config goroutines
(arbitrary indices into the selected list, as the scheduler may interleave
them).  The reset message is sent synchronously before the goroutines are
spawned, so it precedes every per-config publication; a goroutine whose
`lintDocument` fails sends on the error channel instead and publishes
nothing. -/
def runAllLintersDiagTrace (readDir : String → List DirEntry)
    (globMatch : String → String → Bool)
    (lintResult : Language → Except String (List Diagnostic))
    (order : List Nat) (h : LangHandler) (uri : DocumentURI) (eventType : EventType) :
    Except String (List PublishDiagnosticsParams) :=
  match List.lookup uri h.files with
  | none => .error "document not found"
  | some f =>
    let configs := getLintConfigsForDocument readDir globMatch f.normalizedFilename
        f.languageID h.configs eventType
    if configs.isEmpty then .ok []
    else .ok ({ uri := uri, diagnostics := [], version := f.version } ::
      order.filterMap fun i =>
        (configs.get? i).bind fun cfg =>
          match lintResult cfg with
          | .ok ds => some { uri := uri, diagnostics := ds, version := f.version }
          | .error _ => none)

/-- C2: whenever `RunAllLinters` selects at least one lint config, the first
message on the diagnostics channel is the reset: an empty diagnostics list for
the URI with the document's current version, ahead of every per-config
publication of the run (for every goroutine completion order). -/
theorem runAllLinters_reset_first (readDir : String → List DirEntry)
    (globMatch : String → String → Bool)
    (lintResult : Language → Except String (List Diagnostic))
    (order : List Nat) (h : LangHandler) (uri : DocumentURI) (eventType : EventType)
    (f : FileRef) (hf : List.lookup uri h.files = some f)
    (hcfg : getLintConfigsForDocument readDir globMatch f.normalizedFilename
        f.languageID h.configs eventType ≠ []) :
    ∃ rest, runAllLintersDiagTrace readDir globMatch lintResult order h uri eventType
        = .ok ({ uri := uri, diagnostics := [], version := f.version } :: rest) := by
  simp only [runAllLintersDiagTrace, hf]
  rw [if_neg fun hempty => hcfg (by simpa using hempty)]
  exact ⟨_, rfl⟩

/-- Concrete instantiation of `runAllLinters_reset_first`. -/
theorem runAllLinters_reset_first_witness :
    ∃ rest, runAllLintersDiagTrace (fun _ => []) (fun _ _ => false)
        (fun _ => .ok []) [0]
        { configs := [("go", [{ lintCommand := "mylint" }])],
          files := [("file:///tmp/foo",
            { version := 7, normalizedFilename := "/tmp/foo", languageID := "go",
              text := "x", uri := "file:///tmp/foo" })] }
        "file:///tmp/foo" .change
        = .ok ({ uri := "file:///tmp/foo", diagnostics := [], version := 7 } :: rest) :=
  runAllLinters_reset_first (fun _ => []) (fun _ _ => false) (fun _ => .ok []) [0]
    { configs := [("go", [{ lintCommand := "mylint" }])],
      files := [("file:///tmp/foo",
        { version := 7, normalizedFilename := "/tmp/foo", languageID := "go",
          text := "x", uri := "file:///tmp/foo" })] }
    "file:///tmp/foo" .change
    { version := 7, normalizedFilename := "/tmp/foo", languageID := "go",
      text := "x", uri := "file:///tmp/foo" }
    (by decide) (by decide)

/-! ### RunAllFormatters (formatting.go) -/

def carriageReturn : Char := '\r'

/-- Error outcome of `RunAllFormatters`: missing document, or the aggregated
error when no formatter succeeded. -/
inductive FormatError where
  | documentNotFound
  | allFormattersFailed (errors : List String)
deriving Repr, DecidableEq

/-- Embedding of `formatDocument` (formatting.go) around an abstract
subprocess: `runner` maps (built command string, root path, stdin text) to the
formatter's stdout or an error message; the wrapper strips every CR from the
stdout of a successful run and wraps failures like the Go code does. -/
def formatDocument (runner : String → String → String → Except String String)
    (rootPath fname textToFormat : String) (rng : Option Range)
    (options : List (String × OptVal)) (config : Language) : Except String String :=
  let cmdStr := buildFormatCommandString rootPath fname textToFormat options rng
      config.formatCommand
  match runner cmdStr rootPath textToFormat with
  | .error e => .error ("formatting error: " ++ e)
  | .ok out => .ok ⟨replaceAllAux [carriageReturn] [] out.data⟩

/-- The per-config loop of `RunAllFormatters`: a failing formatter's error
message is recorded and the working text left unchanged; a success replaces
the working text and sets the `formatted` flag. -/
def formatLoop (step : Language → String → Except String String) :
    List Language → String → List String → Bool → String × List String × Bool
  | [], cur, errs, fmted => (cur, errs, fmted)
  | cfg :: rest, cur, errs, fmted =>
    match step cfg cur with
    | .error e => formatLoop step rest cur (errs ++ [e]) fmted
    | .ok newText => formatLoop step rest newText errs true

/-- Embedding of `RunAllFormatters` (formatting.go); progress notifications,
which carry no data the claims mention, are omitted. -/
def RunAllFormatters (runner : String → String → String → Except String String)
    (readDir : String → List DirEntry) (globMatch : String → String → Bool)
    (h : LangHandler) (uri : DocumentURI) (rng : Option Range)
    (options : List (String × OptVal)) : Except FormatError (List TextEdit) :=
  match List.lookup uri h.files with
  | none => .error .documentNotFound
  | some f =>
    let configs := getFormatConfigsForDocument readDir globMatch f.normalizedFilename
        f.languageID h.configs
    if configs.isEmpty then .ok []
    else
      let step := fun cfg cur => formatDocument runner
        (findRootPath readDir globMatch h f.normalizedFilename cfg)
        f.normalizedFilename cur rng options cfg
      match formatLoop step configs f.text [] false with
      | (finalText, errs, fmted) =>
        if fmted then .ok (ComputeEdits uri f.text finalText)
        else .error (.allFormattersFailed errs)

/-- The chained working text: each success replaces it, each failure skips. -/
def chainText (step : Language → String → Except String String) :
    List Language → String → String
  | [], cur => cur
  | cfg :: rest, cur =>
    match step cfg cur with
    | .ok o => chainText step rest o
    | .error _ => chainText step rest cur

/-- The error messages recorded along the chain. -/
def collectErrors (step : Language → String → Except String String) :
    List Language → String → List String
  | [], _ => []
  | cfg :: rest, cur =>
    match step cfg cur with
    | .ok o => collectErrors step rest o
    | .error e => e :: collectErrors step rest cur

/-- Whether some formatter along the chain succeeds. -/
def anySuccess (step : Language → String → Except String String) :
    List Language → String → Bool
  | [], _ => false
  | cfg :: rest, cur =>
    match step cfg cur with
    | .ok _ => true
    | .error _ => anySuccess step rest cur

theorem formatLoop_spec (step : Language → String → Except String String)
    (cfgs : List Language) : ∀ (cur : String) (errs : List String) (fmted : Bool),
    formatLoop step cfgs cur errs fmted
      = (chainText step cfgs cur, errs ++ collectErrors step cfgs cur,
         fmted || anySuccess step cfgs cur) := by
  induction cfgs with
  | nil =>
    intro cur errs fmted
    simp [formatLoop, chainText, collectErrors, anySuccess]
  | cons cfg rest ih =>
    intro cur errs fmted
    simp only [formatLoop, chainText, collectErrors, anySuccess]
    cases hstep : step cfg cur with
    | error e => simp [ih]
    | ok o => simp [ih]

/-- C8: with at least one selected format config, `RunAllFormatters` chains
the formatters in order — failures are recorded and skipped, successes replace
the working text with CR-stripped stdout — and returns the aggregated error
exactly when no formatter succeeded, otherwise
`ComputeEdits uri f.text chainedText`. -/
theorem RunAllFormatters_chains (runner : String → String → String → Except String String)
    (readDir : String → List DirEntry) (globMatch : String → String → Bool)
    (h : LangHandler) (uri : DocumentURI) (rng : Option Range)
    (options : List (String × OptVal)) (f : FileRef)
    (hf : List.lookup uri h.files = some f)
    (hcfg : getFormatConfigsForDocument readDir globMatch f.normalizedFilename
        f.languageID h.configs ≠ []) :
    RunAllFormatters runner readDir globMatch h uri rng options
      = (let configs := getFormatConfigsForDocument readDir globMatch
             f.normalizedFilename f.languageID h.configs
         let step := fun cfg cur => formatDocument runner
             (findRootPath readDir globMatch h f.normalizedFilename cfg)
             f.normalizedFilename cur rng options cfg
         if anySuccess step configs f.text then
           .ok (ComputeEdits uri f.text (chainText step configs f.text))
         else .error (.allFormattersFailed (collectErrors step configs f.text))) := by
  simp only [RunAllFormatters, hf]
  rw [if_neg fun hempty => hcfg (by simpa using hempty)]
  rw [formatLoop_spec]
  simp

/-- Concrete instantiation of `RunAllFormatters_chains`: one config whose
formatter outputs `"x\r\ny"`; the CR is stripped and the chained text diffed
against the original. -/
theorem RunAllFormatters_chains_witness :
    RunAllFormatters (fun _ _ _ => .ok "x\r\ny") (fun _ => []) (fun _ _ => false)
        { configs := [("go", [{ formatCommand := "fmt" }])],
          files := [("file:///tmp/foo",
            { version := 1, normalizedFilename := "/tmp/foo", languageID := "go",
              text := "hello", uri := "file:///tmp/foo" })] }
        "file:///tmp/foo" none []
      = (let configs := getFormatConfigsForDocument (fun _ => []) (fun _ _ => false)
             "/tmp/foo" "go" [("go", [{ formatCommand := "fmt" }])]
         let step := fun cfg cur => formatDocument (fun _ _ _ => .ok "x\r\ny")
             (findRootPath (fun _ => []) (fun _ _ => false)
               { configs := [("go", [{ formatCommand := "fmt" }])],
                 files := [("file:///tmp/foo",
                   { version := 1, normalizedFilename := "/tmp/foo", languageID := "go",
                     text := "hello", uri := "file:///tmp/foo" })] }
               "/tmp/foo" cfg)
             "/tmp/foo" cur none [] cfg
         if anySuccess step configs "hello" then
           .ok (ComputeEdits "file:///tmp/foo" "hello" (chainText step configs "hello"))
         else .error (.allFormattersFailed (collectErrors step configs "hello"))) :=
  RunAllFormatters_chains (fun _ _ _ => .ok "x\r\ny") (fun _ => []) (fun _ _ => false)
    { configs := [("go", [{ formatCommand := "fmt" }])],
      files := [("file:///tmp/foo",
        { version := 1, normalizedFilename := "/tmp/foo", languageID := "go",
          text := "hello", uri := "file:///tmp/foo" })] }
    "file:///tmp/foo" none []
    { version := 1, normalizedFilename := "/tmp/foo", languageID := "go",
      text := "hello", uri := "file:///tmp/foo" }
    (by decide) (by decide)

end FlintLs